import Mathlib

/-!
Shallow embedding of the InfiniLM tensor substrate and of the CPU LLaMA
decode/sample pipeline, together with proofs about the embedded operations.

The embedding follows the Rust sources:
  * `tensor/src/tensor.rs`   — `Tensor`, `contiguous_len`, `is_contiguous`,
    `as_slice`, `as_mut_slice`, `reform_to`
  * `tensor/src/split.rs`    — `Tensor::split` and its `build` helper
  * `models/mixtral/common/src/config.rs` — `ConfigJson::data_layout`
  * `models/llama/cpu/src/lib.rs` — `decode`, `sample`

Machine integers are modelled as `Nat`/`Int` (no overflow is reachable in the
modelled code paths), byte buffers as `List Nat`, and panics as `Option`
results (`none` = panic).  Definitions whose source is not part of the
repository snapshot (the `Pattern`/`Compatibility` helpers of the tensor
crate, `DecodingMeta::select` of `causal_lm`, the `reslice`/`slice!` helpers)
are modelled from the specification and marked as such in their doc comments.
-/

/-- A byte buffer: the `[u8]` physicals of the Rust code. -/
abbrev Bytes := List Nat

/-- `digit_layout::DigitLayout`: an opaque dtype descriptor carrying an
identifying code and the element width in bytes. -/
structure DigitLayout where
  code : Nat
  nbytes : Nat
deriving DecidableEq

/-- `digit_layout::types::F16` (2 bytes). -/
def F16 : DigitLayout := ⟨1, 2⟩

/-- `digit_layout::types::BF16` (2 bytes). -/
def BF16 : DigitLayout := ⟨2, 2⟩

/-- `digit_layout::types::F32` (4 bytes). -/
def F32 : DigitLayout := ⟨3, 4⟩

/-- `digit_layout::types::U8` (1 byte). -/
def U8 : DigitLayout := ⟨4, 1⟩

/-- `Tensor<Physical>` from `tensor/src/tensor.rs`: dtype, shape, affine
pattern (strides plus offset; the pattern vector is `strides ++ [offset]`)
and a byte-addressable physical buffer. -/
structure Tensor where
  layout : DigitLayout
  shape : List Nat
  strides : List Int
  offset : Int
  physical : Bytes
deriving DecidableEq

/-- Helper of `contiguous_len`: the reversed `(dim, stride)` pairs are scanned
with the running product `mul`; a trailing dimension is accepted while its
stride equals `mul` or is zero (`if s == *mul || s == 0`), and `mul` is then
multiplied by the dimension. -/
def contigAux : List (Nat × Int) → Int → Nat
  | [], _ => 0
  | (d, s) :: rest, mul =>
    if s = mul ∨ s = 0 then 1 + contigAux rest (mul * (d : Int)) else 0

/-- `Tensor::contiguous_len` (tensor.rs:113): the number of trailing
dimensions accepted by the reversed scan. -/
def Tensor.contiguous_len (t : Tensor) : Nat :=
  contigAux ((t.shape.zip t.strides).reverse) 1

/-- `Tensor::is_contiguous` (tensor.rs:108). -/
def Tensor.is_contiguous (t : Tensor) : Bool :=
  t.contiguous_len == t.shape.length

/-- `Tensor::size` (tensor.rs:98): number of logical elements. -/
def Tensor.size (t : Tensor) : Nat :=
  t.shape.prod

/-- `Tensor::bytes_size` (tensor.rs:103). -/
def Tensor.bytes_size (t : Tensor) : Nat :=
  t.size * t.layout.nbytes

/-- `Tensor::bytes_offset` (tensor.rs:83): pattern offset times the element
width, in bytes. -/
def Tensor.bytes_offset (t : Tensor) : Int :=
  t.offset * (t.layout.nbytes : Int)

/-- `Tensor::as_slice` (tensor.rs:194): asserts contiguity, then returns the
`bytes_size` bytes starting at `bytes_offset`.  The assertion failure is the
`none` case. -/
def Tensor.as_slice (t : Tensor) : Option Bytes :=
  if t.is_contiguous then
    some ((t.physical.drop t.bytes_offset.toNat).take t.bytes_size)
  else
    none

/-- `Tensor::as_mut_slice` (tensor.rs:257): identical guard and slice as
`as_slice`, on a mutable physical. -/
def Tensor.as_mut_slice (t : Tensor) : Option Bytes :=
  if t.is_contiguous then
    some ((t.physical.drop t.bytes_offset.toNat).take t.bytes_size)
  else
    none

/-- Dot product of a stride vector with an index tuple, in `Nat`
(used for the spec-side strides). -/
def dotN : List Nat → List Nat → Nat
  | s :: ss, j :: js => s * j + dotN ss js
  | _, _ => 0

/-- Dot product of an `Int` stride vector with an index tuple: the
`pattern.dot(expand_indices(..))` of the Rust code restricted to the
iterated dimensions. -/
def dotIS : List Int → List Nat → Int
  | s :: ss, j :: js => s * (j : Int) + dotIS ss js
  | _, _ => 0

/-- Canonical packed row-major strides of a shape: the stride of every
dimension is the product of all later dimensions. -/
def canonicalStridesN : List Nat → List Nat
  | [] => []
  | _ :: rest => rest.prod :: canonicalStridesN rest

/-- Modelled from the spec: the row-major enumeration of all index tuples of
a shape ("Enumerate all index tuples of the prefix (in row-major)"); this is
what `idx_strides`/`expand_indices` of the tensor crate (not under src/)
realize with flat indices `0..n`. -/
def allIndexTuples : List Nat → List (List Nat)
  | [] => [[]]
  | d :: rest => (List.range d).flatMap fun i => (allIndexTuples rest).map (i :: ·)

/-- Overwrite `seg.length` bytes of `buf` starting at `pos` with `seg`:
one `copy_nonoverlapping` tile of the reform loop. -/
def writeSeg (buf : Bytes) (pos : Nat) (seg : Bytes) : Bytes :=
  buf.take pos ++ seg ++ buf.drop (pos + seg.length)

/-- `Tensor::reform_to` (tensor.rs:227).  The compatibility test is modelled
from the spec ("two Tensors are compatible iff their shapes match. Dtype must
be identical"; `Compatibility::between` is not under src/); an incompatible
pair panics (`none`) before any copy.  On a compatible pair: take
`c = min(src.contiguous_len, dst.contiguous_len)`, split the shape at `r - c`
into an iterated part and a contiguous tail, and for every index tuple of the
iterated part copy `tail.prod * nbytes` bytes from the source byte position
`(src.offset + src_strides · idx) * nbytes` to the destination byte position
`(dst.offset + dst_strides · idx) * nbytes` (the bases `self.base()` /
`dst.base()` already include the byte offsets). -/
def Tensor.reform_to (src dst : Tensor) : Option Bytes :=
  if src.layout = dst.layout ∧ src.shape = dst.shape then
    let c := min src.contiguous_len dst.contiguous_len
    let dt := src.layout.nbytes
    let r := src.shape.length
    let tail := src.shape.drop (r - c)
    let count := tail.prod * dt
    some ((allIndexTuples (src.shape.take (r - c))).foldl
      (fun buf idx =>
        let sPos := ((src.offset + dotIS (src.strides.take (r - c)) idx) * (dt : Int)).toNat
        let dPos := ((dst.offset + dotIS (dst.strides.take (r - c)) idx) * (dt : Int)).toNat
        writeSeg buf dPos ((src.physical.drop sPos).take count))
      dst.physical)
  else
    none

/-- The contiguous row-major serialization of a tensor: for every index tuple
in row-major order, the `nbytes` bytes of the addressed element. -/
def serialize (t : Tensor) : Bytes :=
  (allIndexTuples t.shape).flatMap fun idx =>
    (t.physical.drop (((t.offset + dotIS t.strides idx) * (t.layout.nbytes : Int)).toNat)).take
      t.layout.nbytes

/-- Written from the spec's words for comparison with `contiguous_len`
(claim C4): the number of trailing dimensions whose strides form the
canonical packed product `s_(r-1) = 1`, `s_k = s_(k+1) * d_(k+1)` — scanning
the reversed `(dim, stride)` pairs, the accumulator holds the required next
stride and no zero-stride shortcut is admitted. -/
def specCanonAux : List (Nat × Int) → Int → Nat
  | [], _ => 0
  | (d, s) :: rest, need =>
    if s = need then 1 + specCanonAux rest (need * (d : Int)) else 0

/-- Spec-side canonical trailing count for a tensor (claim C4 as written). -/
def specCanonicalLen (t : Tensor) : Nat :=
  specCanonAux ((t.shape.zip t.strides).reverse) 1

/-- The amended trailing count: a trailing dimension is accepted when its
stride is zero (broadcast) or equals the product of all later dimensions. -/
def specBroadcastAwareAux : List (Nat × Int) → Nat → Nat
  | [], _ => 0
  | (d, s) :: rest, q =>
    if s = 0 ∨ s = (q : Int) then 1 + specBroadcastAwareAux rest (q * d) else 0

/-- Amended spec-side trailing count for a tensor (claim C4 amended). -/
def specBroadcastAwareLen (t : Tensor) : Nat :=
  specBroadcastAwareAux ((t.shape.zip t.strides).reverse) 1

/-- Views of `Tensor::split` (split.rs:57) accumulated over the segment list
with the running `prefix`: the shape replaces the split axis by the segment,
and the affine matrix (identity plus `prefix` at row `n`, column `axis`)
left-multiplied into the pattern keeps all strides and adds
`prefix * strides[axis]` to the offset.  The physical is shared
(`self.physical.split()`). -/
def splitGo (t : Tensor) (axis : Nat) : List Nat → Int → List Tensor
  | [], _ => []
  | seg :: rest, pre =>
    { layout := t.layout
      shape := t.shape.set axis seg
      strides := t.strides
      offset := t.offset + pre * t.strides.getD axis 0
      physical := t.physical } :: splitGo t axis rest (pre + (seg : Int))

/-- `Tensor::split` (split.rs:57) with the two assertions of `build`
(split.rs:72-73): `assert!(input.len() > axis)` and
`assert!(input[axis] >= segments.iter().sum())`; an assertion failure
panics (`none`) before any view is constructed. -/
def Tensor.split (t : Tensor) (axis : Nat) (segments : List Nat) : Option (List Tensor) :=
  if axis < t.shape.length ∧ segments.sum ≤ t.shape.getD axis 0 then
    some (splitGo t axis segments 0)
  else
    none

/-- `ConfigJson::data_layout` (mixtral config.rs:35): match on the
`torch_dtype` string; the `todo!()` arm panics (`none`). -/
def data_layout (torch_dtype : String) : Option DigitLayout :=
  match torch_dtype with
  | "float16" => some F16
  | "float32" => some F32
  | "bfloat16" => some BF16
  | _ => none

/-- `causal_lm::DecodingMeta`: per-query decoding metadata. -/
structure DecodingMeta where
  num_query : Nat
  num_decode : Nat
deriving DecidableEq

/-- Modelled from the spec: `DecodingMeta::select` (crate `causal_lm`, not
under src/) compacts the rows that need logits toward the front of the
hidden-state tensor and returns the selected row range, here
`0 .. Σ num_decode`. -/
def selectRange (metas : List DecodingMeta) : Nat × Nat :=
  (0, (metas.map (·.num_decode)).sum)

/-- Observable outcome of `decode`: the shape of the returned tensor and
whether the LM-head `mat_mul` was invoked. -/
structure DecodeResult where
  shape : List Nat
  lm_head_invoked : Bool
deriving DecidableEq

/-- `decode` (llama cpu lib.rs:211), at the level of shapes and of the
LM-head invocation: `d` is `config.d` (hidden size) and `nvoc` is
`lm_head.shape()[1]`.  If the selected range is empty it returns the freshly
allocated `[0, d]` tensor without touching the LM head; otherwise it
allocates `[range.len, nvoc]` logits and runs the final norm and the LM-head
`mat_mul`. -/
def decode (d nvoc : Nat) (metas : List DecodingMeta) : DecodeResult :=
  let range := selectRange metas
  if range.2 ≤ range.1 then
    { shape := [0, d], lm_head_invoked := false }
  else
    { shape := [range.2 - range.1, nvoc], lm_head_invoked := true }

/-- `causal_lm::SampleMeta`: number of decoded rows of the query and its
sampling arguments (kept abstract). -/
structure SampleMeta (α : Type) where
  num_decode : Nat
  args : α

/-- `.enumerate().map(f)` of the Rust iterator chain, with the running
index. -/
def enumMapFrom (f : Nat → α → β) : Nat → List α → List β
  | _, [] => []
  | i, a :: rest => f i a :: enumMapFrom f (i + 1) rest

/-- `sample` (llama cpu lib.rs:241).  The `let &[_, voc] = logits.shape()`
pattern panics on any other rank (`none`), `as_slice` asserts contiguity,
and the bytes are reinterpreted as `f16` unconditionally (`reslice`, modelled
from the spec: two bytes per element), so row `i` is the byte range
`[2*voc*i, 2*voc*(i+1))` of the slice (`common_cpu::slice!`, modelled from
the spec).  The draw itself (`args.random`) is an abstract function of the
arguments and the row bytes. -/
def sample {α : Type} (random : α → Bytes → Nat) (metas : List (SampleMeta α))
    (logits : Tensor) : Option (List Nat) :=
  match logits.shape with
  | [_, voc] =>
    match logits.as_slice with
    | some bs =>
      some (enumMapFrom
        (fun i a => random a ((bs.drop (2 * voc * i)).take (2 * voc))) 0
        (metas.flatMap fun m => List.replicate m.num_decode m.args))
    | none => none
  | _ => none

/-- Number of decoded rows contributed by the queries before query `q`. -/
def decodeOffset {α : Type} (metas : List (SampleMeta α)) (q : Nat) : Nat :=
  ((metas.take q).map (·.num_decode)).sum

/-! ## Helper lemmas -/

/-- `contigAux` with a `Nat` accumulator is the broadcast-aware trailing
count: the two scans accept the same dimensions. -/
theorem contigAux_eq_broadcastAware : ∀ (l : List (Nat × Int)) (q : Nat),
    contigAux l (q : Int) = specBroadcastAwareAux l q
  | [], _ => rfl
  | (d, s) :: rest, q => by
    simp only [contigAux, specBroadcastAwareAux, or_comm]
    have h : ((q : Int) * (d : Int)) = ((q * d : Nat) : Int) := by push_cast; ring
    rw [h, contigAux_eq_broadcastAware rest (q * d)]

/-- The trailing scan never counts more dimensions than it is given. -/
theorem contigAux_le_length : ∀ (l : List (Nat × Int)) (mul : Int),
    contigAux l mul ≤ l.length
  | [], _ => Nat.le_refl 0
  | (d, s) :: rest, mul => by
    simp only [contigAux, List.length_cons]
    split
    · have := contigAux_le_length rest (mul * (d : Int))
      omega
    · exact Nat.zero_le _

/-- `contiguous_len` is at most the rank. -/
theorem contiguous_len_le_rank (t : Tensor) : t.contiguous_len ≤ t.shape.length := by
  calc t.contiguous_len ≤ ((t.shape.zip t.strides).reverse).length :=
        contigAux_le_length _ _
    _ ≤ t.shape.length := by
        rw [List.length_reverse, List.length_zip]
        exact min_le_left _ _

/-! ## Claim C4: `contiguous_len` and `is_contiguous` -/

/-- C4 counterexample: on the broadcast tensor of shape `[2]` with stride 0,
`contiguous_len` is 1 although the claimed canonical packed product
(`s_(r-1) = 1`) counts 0 trailing dimensions, so `contiguous_len` is not the
canonical count. -/
theorem contiguous_len_canonical_cex :
    (Tensor.mk U8 [2] [0] 0 [7, 9]).contiguous_len = 1 ∧
    specCanonicalLen (Tensor.mk U8 [2] [0] 0 [7, 9]) = 0 ∧
    ¬ (Tensor.mk U8 [2] [0] 0 [7, 9]).contiguous_len
        = specCanonicalLen (Tensor.mk U8 [2] [0] 0 [7, 9]) := by
  decide

/-- C4 (amended): `contiguous_len` counts the trailing dimensions whose
stride is either zero (broadcast) or the product of all later dimensions —
the canonical packed product extended with the zero-stride shortcut — and
`is_contiguous` holds exactly when `contiguous_len` equals the rank. -/
theorem contiguous_len_broadcast_or_packed (t : Tensor) :
    t.contiguous_len = specBroadcastAwareLen t ∧
    (t.is_contiguous = true ↔ t.contiguous_len = t.shape.length) := by
  constructor
  · have h := contigAux_eq_broadcastAware ((t.shape.zip t.strides).reverse) 1
    simpa [Tensor.contiguous_len, specBroadcastAwareLen] using h
  · simp [Tensor.is_contiguous]

/-! ## Claim C5: `ConfigJson::data_layout` -/

/-- C5: the three supported `torch_dtype` strings map to `F16`, `F32`,
`BF16`; any other string hits the `todo!()` arm, which panics (`none`)
instead of reporting `UnsupportedDtype` to the caller. -/
theorem data_layout_supported_and_todo :
    data_layout "float16" = some F16 ∧
    data_layout "float32" = some F32 ∧
    data_layout "bfloat16" = some BF16 ∧
    data_layout "float64" = none := by
  refine ⟨rfl, rfl, rfl, rfl⟩

/-! ## Claim C6: `reform_to` compatibility -/

/-- C6: `reform_to` succeeds exactly on pairs with equal shape and identical
dtype; an incompatible pair panics (`none`, before any byte is copied). -/
theorem reform_to_compatibility (src dst : Tensor) :
    ((src.reform_to dst).isSome = true ↔ (src.shape = dst.shape ∧ src.layout = dst.layout)) ∧
    (¬ (src.shape = dst.shape ∧ src.layout = dst.layout) → src.reform_to dst = none) := by
  by_cases h : src.layout = dst.layout ∧ src.shape = dst.shape
  · refine ⟨?_, fun hn => absurd ⟨h.2, h.1⟩ hn⟩
    simp only [Tensor.reform_to, if_pos h, Option.isSome_some]
    exact ⟨fun _ => ⟨h.2, h.1⟩, fun _ => trivial⟩
  · have h' : ¬ (src.shape = dst.shape ∧ src.layout = dst.layout) := fun hn =>
      h ⟨hn.2, hn.1⟩
    refine ⟨?_, fun _ => by simp only [Tensor.reform_to, if_neg h]⟩
    simp only [Tensor.reform_to, if_neg h, Option.isSome_none]
    exact ⟨fun hf => absurd hf (by decide), fun hc => absurd hc h'⟩

/-! ## Claim C7: `as_slice` / `as_mut_slice` -/

/-- C7: `as_slice` and `as_mut_slice` fail (the contiguity assertion panics)
exactly on non-contiguous tensors, and on a fully contiguous tensor both
return the `bytes_size` bytes starting at `bytes_offset`. -/
theorem as_slice_requires_contiguous (t : Tensor) :
    (t.as_slice = none ↔ t.is_contiguous = false) ∧
    (t.as_slice = some ((t.physical.drop t.bytes_offset.toNat).take t.bytes_size)
      ↔ t.is_contiguous = true) ∧
    t.as_mut_slice = t.as_slice := by
  by_cases h : t.is_contiguous
  · simp [Tensor.as_slice, Tensor.as_mut_slice, h]
  · simp only [Bool.not_eq_true] at h
    simp [Tensor.as_slice, Tensor.as_mut_slice, h]

/-! ## Claim C10: the assertions of `split` -/

/-- C10: `split` succeeds exactly under the precondition `axis < rank` and
`Σ segments ≤ shape[axis]`; when either assertion fires it panics (`none`)
before constructing any view. -/
theorem split_assertion_guard (t : Tensor) (axis : Nat) (segments : List Nat) :
    ((t.split axis segments).isSome = true
      ↔ (axis < t.shape.length ∧ segments.sum ≤ t.shape.getD axis 0)) ∧
    (¬ (axis < t.shape.length ∧ segments.sum ≤ t.shape.getD axis 0)
      → t.split axis segments = none) := by
  by_cases h : axis < t.shape.length ∧ segments.sum ≤ t.shape.getD axis 0
  · refine ⟨?_, fun hn => absurd h hn⟩
    simp only [Tensor.split, if_pos h, Option.isSome_some]
    exact ⟨fun _ => h, fun _ => trivial⟩
  · refine ⟨?_, fun _ => by simp only [Tensor.split, if_neg h]⟩
    constructor
    · intro hf
      rw [Tensor.split, if_neg h] at hf
      exact absurd hf (by decide)
    · intro hc
      exact absurd hc h

/-! ## Claim C1: empty decode -/

/-- C1 counterexample: with hidden size 4 and vocabulary 7, an empty decode
returns the `[0, 4]` tensor (`[0, d]`, where `d` is the hidden size), not
the claimed `[0, nvoc] = [0, 7]`. -/
theorem decode_empty_shape_cex :
    decode 4 7 [⟨3, 0⟩] = ⟨[0, 4], false⟩ ∧
    ¬ (decode 4 7 [⟨3, 0⟩]).shape = [0, 7] := by
  decide

/-- C1 (amended): when the decoding metadata sums to zero decoded rows,
`decode` returns an empty `[0, d]` tensor (`d` the hidden size, not `nvoc`)
and does not invoke the LM-head `mat_mul`. -/
theorem decode_empty_no_lm_head (d nvoc : Nat) (metas : List DecodingMeta)
    (h : (metas.map (·.num_decode)).sum = 0) :
    decode d nvoc metas = ⟨[0, d], false⟩ := by
  simp [decode, selectRange, h]

/-- Witness for C1's amended theorem at a concrete input. -/
theorem decode_empty_no_lm_head_witness :
    decode 4 7 [⟨3, 0⟩, ⟨2, 0⟩] = ⟨[0, 4], false⟩ :=
  decode_empty_no_lm_head 4 7 [⟨3, 0⟩, ⟨2, 0⟩] (by decide)

/-! ## Claim C3: `split` view metadata -/

/-- The accumulated views of `splitGo` have one entry per segment. -/
theorem splitGo_length (t : Tensor) (axis : Nat) : ∀ (segs : List Nat) (pre : Int),
    (splitGo t axis segs pre).length = segs.length
  | [], _ => rfl
  | _ :: rest, pre => by
    simp only [splitGo, List.length_cons]
    rw [splitGo_length t axis rest]

/-- Characterization of the `i`-th view produced by `splitGo`: shape with the
axis replaced by the `i`-th segment, unchanged strides, and the offset moved
by the accumulated number of earlier rows times the axis stride. -/
theorem splitGo_getD (t : Tensor) (axis : Nat) :
    ∀ (segs : List Nat) (pre : Int) (i : Nat), i < segs.length →
      (splitGo t axis segs pre).getD i t =
        { layout := t.layout
          shape := t.shape.set axis (segs.getD i 0)
          strides := t.strides
          offset := t.offset + (pre + ((segs.take i).sum : Int)) * t.strides.getD axis 0
          physical := t.physical }
  | [], _, i, hi => absurd hi (by simp)
  | seg :: rest, pre, 0, _ => by
    simp [splitGo]
  | seg :: rest, pre, i + 1, hi => by
    have hi' : i < rest.length := by simpa using hi
    simp only [splitGo, List.getD_cons_succ]
    rw [splitGo_getD t axis rest (pre + (seg : Int)) i hi']
    have : pre + (seg : Int) + ((rest.take i).sum : Int)
        = pre + (((seg :: rest).take (i + 1)).sum : Int) := by
      simp [List.take_succ_cons]
      ring
    rw [this]

/-- C3: under the precondition `axis < rank` and `Σ segments ≤ shape[axis]`,
`split` returns one view per segment in order; the `i`-th view keeps dtype,
strides and physical buffer of the source, its shape is the source shape
with the axis replaced by `segments[i]`, and its offset is the source offset
plus `(Σ of the earlier segments) * strides[axis]`, so the views tile
`[0, Σ segments)` along the axis. -/
theorem split_views_metadata (t : Tensor) (axis : Nat) (segments : List Nat)
    (ha : axis < t.shape.length) (hs : segments.sum ≤ t.shape.getD axis 0) :
    ∃ views, t.split axis segments = some views ∧
      views.length = segments.length ∧
      ∀ i, i < segments.length →
        views.getD i t =
          { layout := t.layout
            shape := t.shape.set axis (segments.getD i 0)
            strides := t.strides
            offset := t.offset + ((segments.take i).sum : Int) * t.strides.getD axis 0
            physical := t.physical } := by
  refine ⟨splitGo t axis segments 0, ?_, splitGo_length t axis segments 0, ?_⟩
  · rw [Tensor.split, if_pos ⟨ha, hs⟩]
  · intro i hi
    rw [splitGo_getD t axis segments 0 i hi]
    simp

/-- Witness for C3 at the concrete input of the Rust unit test
(`build(1, &[3, 4, 5], &[11, 12, 13])`). -/
theorem split_views_metadata_witness :
    ∃ views, (Tensor.mk U8 [11, 12, 13] [156, 13, 1] 0 [5]).split 1 [3, 4, 5] = some views ∧
      views.length = ([3, 4, 5] : List Nat).length ∧
      ∀ i, i < ([3, 4, 5] : List Nat).length →
        views.getD i (Tensor.mk U8 [11, 12, 13] [156, 13, 1] 0 [5]) =
          { layout := (Tensor.mk U8 [11, 12, 13] [156, 13, 1] 0 [5]).layout
            shape := (Tensor.mk U8 [11, 12, 13] [156, 13, 1] 0 [5]).shape.set 1
              (([3, 4, 5] : List Nat).getD i 0)
            strides := (Tensor.mk U8 [11, 12, 13] [156, 13, 1] 0 [5]).strides
            offset := (Tensor.mk U8 [11, 12, 13] [156, 13, 1] 0 [5]).offset
              + ((([3, 4, 5] : List Nat).take i).sum : Int)
                * (Tensor.mk U8 [11, 12, 13] [156, 13, 1] 0 [5]).strides.getD 1 0
            physical := (Tensor.mk U8 [11, 12, 13] [156, 13, 1] 0 [5]).physical } :=
  split_views_metadata (Tensor.mk U8 [11, 12, 13] [156, 13, 1] 0 [5]) 1 [3, 4, 5]
    (by decide) (by decide)

/-! ## Claims C8 and C9: `sample` -/

/-- `enumMapFrom` preserves the length. -/
theorem enumMapFrom_length {α β : Type} (f : Nat → α → β) : ∀ (i : Nat) (l : List α),
    (enumMapFrom f i l).length = l.length
  | _, [] => rfl
  | i, _ :: rest => by
    simp only [enumMapFrom, List.length_cons]
    rw [enumMapFrom_length f (i + 1) rest]

/-- The `k`-th entry of `enumMapFrom` applies `f` at index `i + k`. -/
theorem enumMapFrom_getD {α β : Type} (f : Nat → α → β) (b0 : β) (a0 : α) :
    ∀ (i k : Nat) (l : List α), k < l.length →
      (enumMapFrom f i l).getD k b0 = f (i + k) (l.getD k a0)
  | _, k, [], hk => absurd hk (by simp)
  | i, 0, a :: rest, _ => by
    simp [enumMapFrom]
  | i, k + 1, a :: rest, hk => by
    have hk' : k < rest.length := by simpa using hk
    simp only [enumMapFrom, List.getD_cons_succ]
    rw [enumMapFrom_getD f b0 a0 (i + 1) k rest hk']
    congr 1
    omega

/-- `enumMapFrom` only depends on `f` at the indices it actually passes. -/
theorem enumMapFrom_congr {α β : Type} (f g : Nat → α → β) :
    ∀ (i : Nat) (l : List α), (∀ k a, i ≤ k → k < i + l.length → f k a = g k a) →
      enumMapFrom f i l = enumMapFrom g i l
  | _, [], _ => rfl
  | i, a :: rest, h => by
    simp only [enumMapFrom]
    rw [h i a (Nat.le_refl i) (by simp), enumMapFrom_congr f g (i + 1) rest]
    intro k x hk1 hk2
    apply h k x (by omega)
    simp only [List.length_cons]
    omega

/-- The flattened argument list of `sample` has one entry per decoded row. -/
theorem flatArgs_length {α : Type} : ∀ (metas : List (SampleMeta α)),
    (metas.flatMap fun m => List.replicate m.num_decode m.args).length
      = (metas.map (·.num_decode)).sum
  | [] => rfl
  | m :: rest => by
    simp only [List.flatMap_cons, List.length_append, List.length_replicate,
      List.map_cons, List.sum_cons]
    rw [flatArgs_length rest]

/-- Entries of a `replicate` block. -/
theorem replicate_getD {α : Type} (a a0 : α) : ∀ (n j : Nat), j < n →
    (List.replicate n a).getD j a0 = a
  | 0, _, hj => absurd hj (by simp)
  | n + 1, 0, _ => rfl
  | n + 1, j + 1, hj => by
    simp only [List.replicate, List.getD_cons_succ]
    exact replicate_getD a a0 n j (by omega)

/-- Row `decodeOffset q + j` of the flattened argument list carries the
arguments of query `q` (for `j` within its decoded rows). -/
theorem flatArgs_getD {α : Type} (a0 : α) :
    ∀ (metas : List (SampleMeta α)) (q j : Nat) (hq : q < metas.length),
      j < (metas.get ⟨q, hq⟩).num_decode →
      (metas.flatMap fun m => List.replicate m.num_decode m.args).getD
          (decodeOffset metas q + j) a0
        = (metas.get ⟨q, hq⟩).args
  | [], q, _, hq, _ => absurd hq (by simp)
  | m :: rest, 0, j, _, hj => by
    simp only [decodeOffset, List.take_zero, List.map_nil, List.sum_nil, Nat.zero_add,
      List.flatMap_cons]
    rw [List.getD_append _ _ _ _ (by simpa [List.length_replicate] using hj)]
    exact replicate_getD m.args a0 m.num_decode j (by simpa using hj)
  | m :: rest, q + 1, j, hq, hj => by
    have hq' : q < rest.length := by simpa using hq
    have hoff : decodeOffset (m :: rest) (q + 1) = m.num_decode + decodeOffset rest q := by
      simp [decodeOffset, List.take_succ_cons]
    simp only [List.flatMap_cons, hoff]
    rw [Nat.add_assoc,
      List.getD_append_right _ _ _ _ (by simp [List.length_replicate]),
      List.length_replicate, Nat.add_sub_cancel_left]
    exact flatArgs_getD a0 rest q j hq' hj

/-- The decoded rows of the queries up to and including `q` all fit below the
total number of decoded rows. -/
theorem decodeOffset_add_le {α : Type} :
    ∀ (metas : List (SampleMeta α)) (q : Nat) (hq : q < metas.length),
      decodeOffset metas q + (metas.get ⟨q, hq⟩).num_decode
        ≤ (metas.map (·.num_decode)).sum
  | [], q, hq => absurd hq (by simp)
  | m :: rest, 0, _ => by
    simp [decodeOffset]
  | m :: rest, q + 1, hq => by
    have hq' : q < rest.length := by simpa using hq
    have ih := decodeOffset_add_le rest q hq'
    have hg : (m :: rest).get ⟨q + 1, hq⟩ = rest.get ⟨q, hq'⟩ := rfl
    rw [hg]
    simp only [decodeOffset, List.take_succ_cons, List.map_cons, List.sum_cons] at *
    omega

/-- Taking inside a longer taken slice is taking from the underlying list. -/
theorem take_drop_take (l : Bytes) (m a b : Nat) (h : a + b ≤ m) :
    ((l.take m).drop a).take b = (l.drop a).take b := by
  rw [List.drop_take, List.take_take, min_eq_left (by omega)]

/-- C8: `sample` returns one token per decoded row, in row order: the output
has `Σ num_decode` entries, and the entry at position `decodeOffset q + j`
(the `j`-th decoded row of query `q`) is drawn by `args.random` from row
`decodeOffset q + j` of the logits slice using the arguments of query `q`. -/
theorem sample_in_row_order {α : Type} (random : α → Bytes → Nat)
    (metas : List (SampleMeta α)) (t : Tensor) (n voc : Nat)
    (hsh : t.shape = [n, voc]) (hc : t.is_contiguous = true) :
    ∃ bs toks, t.as_slice = some bs ∧ sample random metas t = some toks ∧
      toks.length = (metas.map (·.num_decode)).sum ∧
      ∀ q j (hq : q < metas.length), j < (metas.get ⟨q, hq⟩).num_decode →
        toks.getD (decodeOffset metas q + j) 0 =
          random (metas.get ⟨q, hq⟩).args
            ((bs.drop (2 * voc * (decodeOffset metas q + j))).take (2 * voc)) := by
  obtain ⟨tl, tsh, tstr, toff, tphys⟩ := t
  have hsh' : tsh = [n, voc] := hsh
  subst hsh'
  have hslice : (Tensor.mk tl [n, voc] tstr toff tphys).as_slice
      = some (((Tensor.mk tl [n, voc] tstr toff tphys).physical.drop
          (Tensor.mk tl [n, voc] tstr toff tphys).bytes_offset.toNat).take
            (Tensor.mk tl [n, voc] tstr toff tphys).bytes_size) := by
    simp [Tensor.as_slice, hc]
  have hsamp : sample random metas (Tensor.mk tl [n, voc] tstr toff tphys)
      = some (enumMapFrom (fun i a => random a
          ((((((Tensor.mk tl [n, voc] tstr toff tphys).physical.drop
              (Tensor.mk tl [n, voc] tstr toff tphys).bytes_offset.toNat).take
                (Tensor.mk tl [n, voc] tstr toff tphys).bytes_size)).drop
                  (2 * voc * i)).take (2 * voc))) 0
          (metas.flatMap fun m => List.replicate m.num_decode m.args)) := by
    simp only [sample, hslice]
  refine ⟨_, _, hslice, hsamp, ?_, ?_⟩
  · rw [enumMapFrom_length, flatArgs_length]
  · intro q j hq hj
    have hlt : decodeOffset metas q + j
        < (metas.flatMap fun m => List.replicate m.num_decode m.args).length := by
      rw [flatArgs_length]
      have := decodeOffset_add_le metas q hq
      omega
    rw [enumMapFrom_getD _ 0 ((metas.get ⟨q, hq⟩).args) 0 _ _ hlt, Nat.zero_add,
      flatArgs_getD _ metas q j hq hj]

/-- Witness for C8 at a concrete logits tensor (`[3, 2]`, f16, contiguous)
and two queries decoding 1 and 2 rows. -/
theorem sample_in_row_order_witness :
    ∃ bs toks,
      (Tensor.mk F16 [3, 2] [2, 1] 0 [1, 2, 3, 4, 5, 6, 7, 8, 9, 10, 11, 12]).as_slice
        = some bs ∧
      sample (fun (a : Nat) (bs' : Bytes) => a + bs'.sum)
          [⟨1, 5⟩, ⟨2, 9⟩]
          (Tensor.mk F16 [3, 2] [2, 1] 0 [1, 2, 3, 4, 5, 6, 7, 8, 9, 10, 11, 12])
        = some toks ∧
      toks.length = (([⟨1, 5⟩, ⟨2, 9⟩] : List (SampleMeta Nat)).map (·.num_decode)).sum ∧
      ∀ q j (hq : q < ([⟨1, 5⟩, ⟨2, 9⟩] : List (SampleMeta Nat)).length),
        j < (([⟨1, 5⟩, ⟨2, 9⟩] : List (SampleMeta Nat)).get ⟨q, hq⟩).num_decode →
        toks.getD (decodeOffset ([⟨1, 5⟩, ⟨2, 9⟩] : List (SampleMeta Nat)) q + j) 0 =
          (fun (a : Nat) (bs' : Bytes) => a + bs'.sum)
            (([⟨1, 5⟩, ⟨2, 9⟩] : List (SampleMeta Nat)).get ⟨q, hq⟩).args
            ((bs.drop (2 * 2 * (decodeOffset ([⟨1, 5⟩, ⟨2, 9⟩] : List (SampleMeta Nat)) q + j))).take
              (2 * 2)) :=
  sample_in_row_order (fun (a : Nat) (bs' : Bytes) => a + bs'.sum) [⟨1, 5⟩, ⟨2, 9⟩]
    (Tensor.mk F16 [3, 2] [2, 1] 0 [1, 2, 3, 4, 5, 6, 7, 8, 9, 10, 11, 12]) 3 2
    (by decide) (by decide)

/-- C9: `sample` never inspects the declared dtype beyond the slice length:
with the logits rows read unconditionally as f16 (two-byte) elements, two
tensors that share shape `[n, voc]`, strides, offset 0 and raw bytes produce
identical tokens whatever their declared dtypes are (as long as the widths
are at least the two bytes of f16, so that every decoded row lies inside
both slices). -/
theorem sample_reads_raw_bytes_as_f16 {α : Type} (random : α → Bytes → Nat)
    (metas : List (SampleMeta α)) (l1 l2 : DigitLayout) (str : List Int)
    (phys : Bytes) (n voc : Nat)
    (hnd : (metas.map (·.num_decode)).sum ≤ n)
    (h1 : 2 ≤ l1.nbytes) (h2 : 2 ≤ l2.nbytes) :
    sample random metas (Tensor.mk l1 [n, voc] str 0 phys)
      = sample random metas (Tensor.mk l2 [n, voc] str 0 phys) := by
  by_cases hc : (Tensor.mk l1 [n, voc] str 0 phys).is_contiguous = true
  · have hc2 : (Tensor.mk l2 [n, voc] str 0 phys).is_contiguous = true := hc
    have hoff : ∀ l : DigitLayout, ((0 : Int) * (l.nbytes : Int)).toNat = 0 := by
      intro l
      simp
    have e1 : (Tensor.mk l1 [n, voc] str 0 phys).as_slice
        = some (phys.take (n * (voc * 1) * l1.nbytes)) := by
      simp only [Tensor.as_slice, hc, if_pos, Tensor.bytes_offset, Tensor.bytes_size,
        Tensor.size, hoff, List.drop_zero]
      rfl
    have e2 : (Tensor.mk l2 [n, voc] str 0 phys).as_slice
        = some (phys.take (n * (voc * 1) * l2.nbytes)) := by
      simp only [Tensor.as_slice, hc2, if_pos, Tensor.bytes_offset, Tensor.bytes_size,
        Tensor.size, hoff, List.drop_zero]
      rfl
    simp only [sample, e1, e2]
    congr 1
    apply enumMapFrom_congr
    intro k a _ hk
    have hk' : k + 1 ≤ n := by
      rw [Nat.zero_add, flatArgs_length] at hk
      omega
    have hrow : ∀ l : DigitLayout, 2 ≤ l.nbytes →
        ((phys.take (n * (voc * 1) * l.nbytes)).drop (2 * voc * k)).take (2 * voc)
          = (phys.drop (2 * voc * k)).take (2 * voc) := by
      intro l hl
      apply take_drop_take
      calc 2 * voc * k + 2 * voc = 2 * voc * (k + 1) := by ring
        _ ≤ 2 * voc * n := Nat.mul_le_mul_left _ hk'
        _ ≤ l.nbytes * voc * n := by
            have := Nat.mul_le_mul_right (voc * n) hl
            calc 2 * voc * n = 2 * (voc * n) := by ring
              _ ≤ l.nbytes * (voc * n) := this
              _ = l.nbytes * voc * n := by ring
        _ = n * (voc * 1) * l.nbytes := by ring
    rw [hrow l1 h1, hrow l2 h2]
  · have hc2 : ¬ (Tensor.mk l2 [n, voc] str 0 phys).is_contiguous = true := hc
    have e1 : (Tensor.mk l1 [n, voc] str 0 phys).as_slice = none := by
      simp [Tensor.as_slice, hc]
    have e2 : (Tensor.mk l2 [n, voc] str 0 phys).as_slice = none := by
      simp [Tensor.as_slice, hc2]
    simp only [sample, e1, e2]

/-- Witness for C9: an F16-typed and an F32-typed view of the same raw
buffer sample the same tokens. -/
theorem sample_reads_raw_bytes_as_f16_witness :
    sample (fun (a : Nat) (bs' : Bytes) => a + bs'.sum) [⟨1, 3⟩]
        (Tensor.mk F16 [2, 2] [2, 1] 0 [1, 2, 3, 4, 5, 6, 7, 8])
      = sample (fun (a : Nat) (bs' : Bytes) => a + bs'.sum) [⟨1, 3⟩]
        (Tensor.mk F32 [2, 2] [2, 1] 0 [1, 2, 3, 4, 5, 6, 7, 8]) :=
  sample_reads_raw_bytes_as_f16 (fun (a : Nat) (bs' : Bytes) => a + bs'.sum) [⟨1, 3⟩]
    F16 F32 [2, 1] [1, 2, 3, 4, 5, 6, 7, 8] 2 2 (by decide) (by decide) (by decide)

/-! ## Claim C2: `reform_to` produces the row-major serialization -/

/-- Every enumerated index tuple has one coordinate per dimension. -/
theorem allIndexTuples_mem_length : ∀ (sh : List Nat), ∀ idx ∈ allIndexTuples sh,
    idx.length = sh.length
  | [], idx, hm => by
    simp only [allIndexTuples, List.mem_singleton] at hm
    simp [hm]
  | d :: rest, idx, hm => by
    simp only [allIndexTuples, List.mem_flatMap, List.mem_map] at hm
    obtain ⟨i, _, tl, htl, rfl⟩ := hm
    simp [allIndexTuples_mem_length rest tl htl]

/-- Row-major enumeration of a concatenated shape: tuples of the first part,
each extended by every tuple of the second part. -/
theorem allIndexTuples_append : ∀ (a b : List Nat),
    allIndexTuples (a ++ b)
      = (allIndexTuples a).flatMap fun p => (allIndexTuples b).map (p ++ ·)
  | [], b => by
    simp [allIndexTuples]
  | d :: a', b => by
    have ih := allIndexTuples_append a' b
    simp only [List.cons_append, allIndexTuples]
    rw [show a'.append b = a' ++ b from rfl, ih]
    simp only [List.map_flatMap, List.flatMap_assoc, List.flatMap_map, List.map_map,
      Function.comp_def, List.cons_append]

/-- `canonicalStridesN` has one stride per dimension. -/
theorem canonicalStridesN_length : ∀ (sh : List Nat),
    (canonicalStridesN sh).length = sh.length
  | [] => rfl
  | _ :: rest => by
    simp only [canonicalStridesN, List.length_cons]
    rw [canonicalStridesN_length rest]

/-- Canonical strides of a concatenated shape: the strides of the first part
scaled by the size of the second part, then the strides of the second part. -/
theorem canonicalStridesN_append : ∀ (a b : List Nat),
    canonicalStridesN (a ++ b)
      = (canonicalStridesN a).map (· * b.prod) ++ canonicalStridesN b
  | [], b => by simp [canonicalStridesN]
  | x :: a', b => by
    simp only [List.cons_append, canonicalStridesN, List.map_cons]
    rw [show List.append a' b = a' ++ b from rfl, canonicalStridesN_append a' b,
      List.prod_append]

/-- Dot product against uniformly scaled strides. -/
theorem dotN_scaled (m : Nat) : ∀ (ss : List Nat) (idx : List Nat),
    dotN (ss.map (· * m)) idx = dotN ss idx * m
  | [], idx => by cases idx <;> simp [dotN]
  | s :: ss, [] => by simp [dotN]
  | s :: ss, j :: js => by
    simp only [List.map_cons, dotN]
    rw [dotN_scaled m ss js]
    ring

/-- Dot product of concatenated stride/index vectors splits additively. -/
theorem dotN_append : ∀ (s1 s2 i1 i2 : List Nat), s1.length = i1.length →
    dotN (s1 ++ s2) (i1 ++ i2) = dotN s1 i1 + dotN s2 i2
  | [], s2, [], i2, _ => by simp [dotN]
  | [], _, _ :: _, _, h => absurd h (by simp)
  | _ :: _, _, [], _, h => absurd h (by simp)
  | s :: s1, s2, i :: i1, i2, h => by
    simp only [List.cons_append, dotN]
    rw [show List.append s1 s2 = s1 ++ s2 from rfl,
      show List.append i1 i2 = i1 ++ i2 from rfl,
      dotN_append s1 s2 i1 i2 (by simpa using h)]
    ring

/-- The `Int`-valued dot product of cast strides is the cast `Nat` dot. -/
theorem dotIS_cast : ∀ (ss : List Nat) (idx : List Nat),
    dotIS (ss.map Int.ofNat) idx = (dotN ss idx : Int)
  | [], idx => by cases idx <;> simp [dotIS, dotN]
  | s :: ss, [] => by simp [dotIS, dotN]
  | s :: ss, j :: js => by
    simp only [List.map_cons, dotIS, dotN, Int.ofNat_eq_natCast]
    rw [dotIS_cast ss js]
    push_cast
    ring

/-- Row-major flat indices of a product decompose blockwise. -/
theorem range_mul_flat : ∀ (d P : Nat),
    List.range (d * P) = (List.range d).flatMap fun i => (List.range P).map (i * P + ·)
  | 0, P => by simp
  | d + 1, P => by
    have h : (d + 1) * P = d * P + P := by ring
    rw [h, List.range_add, List.range_succ, List.flatMap_append, range_mul_flat d P]
    simp

/-- Dotting every row-major tuple with the canonical strides enumerates the
flat indices `0, 1, …, prod − 1` in order. -/
theorem map_dot_canonical : ∀ (sh : List Nat),
    (allIndexTuples sh).map (fun tpl => dotN (canonicalStridesN sh) tpl)
      = List.range sh.prod
  | [] => by decide
  | d :: rest => by
    simp only [allIndexTuples, canonicalStridesN, List.map_flatMap, List.map_map,
      Function.comp_def, dotN, List.prod_cons]
    rw [range_mul_flat d rest.prod, List.flatMap_def, List.flatMap_def]
    congr 1
    apply List.map_congr_left
    intro i _
    rw [← map_dot_canonical rest, List.map_map]
    apply List.map_congr_left
    intro t _
    simp only [Function.comp_def]
    ring

/-- A contiguous slice of `m * dt` bytes is the concatenation of its `m`
element slices of `dt` bytes each. -/
theorem slice_decompose (buf : Bytes) (dt : Nat) : ∀ (m p : Nat),
    (List.range m).flatMap (fun k => (buf.drop (p + k * dt)).take dt)
      = (buf.drop p).take (m * dt)
  | 0, p => by simp
  | m + 1, p => by
    rw [List.range_succ, List.flatMap_append, slice_decompose buf dt m p]
    have h : (m + 1) * dt = m * dt + dt := by ring
    rw [h, List.take_add]
    simp [List.drop_drop]

/-- In-bounds `writeSeg` preserves the buffer length. -/
theorem writeSeg_length (buf seg : Bytes) (pos : Nat) (h : pos + seg.length ≤ buf.length) :
    (writeSeg buf pos seg).length = buf.length := by
  simp only [writeSeg, List.length_append, List.length_take, List.length_drop]
  omega

/-- Writing equally sized tiles at consecutive tile positions fills the
buffer past the start position with the concatenation of the tiles. -/
theorem write_tiles {γ : Type} :
    ∀ (ts : List γ) (g : γ → Nat) (f : γ → Bytes) (count start : Nat) (buf : Bytes),
      ts.map g = List.range' start ts.length →
      (∀ x ∈ ts, (f x).length = count) →
      buf.length = (start + ts.length) * count →
      ts.foldl (fun b x => writeSeg b (g x * count) (f x)) buf
        = buf.take (start * count) ++ ts.flatMap f
  | [], g, f, count, start, buf, _, _, hlen => by
    simp only [List.foldl_nil, List.flatMap_nil, List.append_nil]
    have h : buf.length = start * count := by simpa using hlen
    rw [List.take_of_length_le (by omega)]
  | x :: rest, g, f, count, start, buf, hmap, hf, hlen => by
    simp only [List.map_cons, List.length_cons, List.range'_succ, List.cons.injEq] at hmap
    obtain ⟨hgx, hrest⟩ := hmap
    have hfx : (f x).length = count := hf x (List.mem_cons_self x rest)
    have hlen' : buf.length = start * count + count + rest.length * count := by
      rw [hlen]
      simp only [List.length_cons]
      ring
    have hposfit : start * count + count ≤ buf.length := by omega
    have hstartfit : start * count ≤ buf.length := by omega
    simp only [List.foldl_cons, List.flatMap_cons, hgx]
    have hw : writeSeg buf (start * count) (f x)
        = buf.take (start * count) ++ f x ++ buf.drop (start * count + count) := by
      simp [writeSeg, hfx]
    have hwlen : (writeSeg buf (start * count) (f x)).length = buf.length :=
      writeSeg_length buf (f x) (start * count) (by omega)
    rw [write_tiles rest g f count (start + 1) (writeSeg buf (start * count) (f x))
      hrest (fun y hy => hf y (List.mem_cons_of_mem x hy))
      (by rw [hwlen, hlen]; simp only [List.length_cons]; ring)]
    have htake : (writeSeg buf (start * count) (f x)).take ((start + 1) * count)
        = buf.take (start * count) ++ f x := by
      rw [hw]
      have h1 : (start + 1) * count = (buf.take (start * count) ++ f x).length + 0 := by
        simp only [List.length_append, List.length_take, min_eq_left hstartfit, hfx]
        ring
      rw [List.append_assoc, ← List.append_assoc]
      rw [h1, List.take_append, List.take_zero, List.append_nil]
    rw [htake, List.append_assoc]

/-- The canonical packed strides, scaled by any positive or zero factor `m`
and scanned with accumulator `m`, are accepted in full by the contiguity
scan. -/
theorem contigAux_canonical_scaled (m : Nat) : ∀ (sh : List Nat),
    contigAux ((sh.zip ((canonicalStridesN sh).map fun x => Int.ofNat (x * m))).reverse)
        (Int.ofNat m)
      = sh.length := by
  intro sh
  induction sh using List.reverseRecOn generalizing m with
  | nil => rfl
  | append_singleton sh d ih =>
    rw [canonicalStridesN_append sh [d]]
    have hc1 : canonicalStridesN [d] = [1] := rfl
    rw [hc1]
    have hmaps : ((canonicalStridesN sh).map (· * ([d] : List Nat).prod) ++ [1]).map
          (fun x => Int.ofNat (x * m))
        = (canonicalStridesN sh).map (fun x => Int.ofNat (x * (d * m))) ++ [Int.ofNat m] := by
      simp only [List.map_append, List.map_map, List.map_cons, List.map_nil,
        Function.comp_def, List.prod_cons, List.prod_nil, Nat.mul_one, Nat.one_mul]
      congr 1
      apply List.map_congr_left
      intro a _
      congr 1
      ring
    rw [hmaps, List.zip_append (by simp [canonicalStridesN_length]), List.reverse_append]
    have hz : (([d] : List Nat).zip [Int.ofNat m]) = [(d, Int.ofNat m)] := rfl
    rw [hz, show ([(d, Int.ofNat m)] : List (Nat × Int)).reverse = [(d, Int.ofNat m)] from rfl,
      List.singleton_append]
    simp only [contigAux]
    rw [if_pos (Or.inl trivial)]
    have hacc : Int.ofNat m * (d : Int) = Int.ofNat (d * m) := by
      simp only [Int.ofNat_eq_natCast]
      push_cast
      ring
    rw [hacc, ih (d * m)]
    simp only [List.length_append, List.length_cons, List.length_nil]
    omega

/-- A tensor whose strides are the canonical packed strides of its shape is
fully contiguous. -/
theorem canonical_contiguous (l : DigitLayout) (sh : List Nat) (off : Int) (phys : Bytes) :
    (Tensor.mk l sh ((canonicalStridesN sh).map Int.ofNat) off phys).contiguous_len
      = sh.length := by
  have h := contigAux_canonical_scaled 1 sh
  simp only [Nat.mul_one] at h
  simpa [Tensor.contiguous_len] using h

/-- `toNat` of a product of two `Nat` casts. -/
theorem toNat_cast_mul (a b : Nat) : ((a : Int) * (b : Int)).toNat = a * b := by
  rw [← Nat.cast_mul, Int.toNat_natCast]

/-- C2 (amended): for shape-compatible tensors, `reform_to` enumerates the
row-major index tuples of the iterated part of the shape (the dimensions in
front of the shared contiguous tail `c = min(src.contiguous_len,
dst.contiguous_len)`) and copies `tail.prod * nbytes` bytes per tuple between
the offsets computed from the two affine patterns; when the destination is
strictly packed row-major (canonical strides, offset 0, exactly sized) and
the trailing `c` strides of the source are the canonical packed strides of
the tail (no zero-stride/broadcast shortcut), the destination buffer ends up
bit-identical to the contiguous row-major serialization of the source. -/
theorem reform_to_serializes (l : DigitLayout) (sh srcStr : List Nat) (o : Nat)
    (sphys dphys : Bytes) (c : Nat)
    (hslen : srcStr.length = sh.length)
    (hc : c = min (Tensor.mk l sh (srcStr.map Int.ofNat) (Int.ofNat o) sphys).contiguous_len
        (Tensor.mk l sh ((canonicalStridesN sh).map Int.ofNat) 0 dphys).contiguous_len)
    (hdlen : dphys.length = sh.prod * l.nbytes)
    (htail : srcStr.drop (sh.length - c) = canonicalStridesN (sh.drop (sh.length - c)))
    (hbound : ∀ idx ∈ allIndexTuples (sh.take (sh.length - c)),
      (o + dotN (srcStr.take (sh.length - c)) idx) * l.nbytes
        + (sh.drop (sh.length - c)).prod * l.nbytes ≤ sphys.length) :
    (Tensor.mk l sh (srcStr.map Int.ofNat) (Int.ofNat o) sphys).reform_to
        (Tensor.mk l sh ((canonicalStridesN sh).map Int.ofNat) 0 dphys)
      = some (serialize (Tensor.mk l sh (srcStr.map Int.ofNat) (Int.ofNat o) sphys)) := by
  simp only [Tensor.reform_to, serialize, and_self, if_true]
  rw [← hc]
  congr 1
  have hiterlen : (List.take (sh.length - c) sh).length = sh.length - c := by
    rw [List.length_take]
    exact min_eq_left (Nat.sub_le _ _)
  have hcanon_split : canonicalStridesN sh
      = (canonicalStridesN (sh.take (sh.length - c))).map (· * (sh.drop (sh.length - c)).prod)
        ++ canonicalStridesN (sh.drop (sh.length - c)) := by
    conv_lhs => rw [← List.take_append_drop (sh.length - c) sh]
    rw [canonicalStridesN_append]
  have hdsttake : List.take (sh.length - c) ((canonicalStridesN sh).map Int.ofNat)
      = ((canonicalStridesN (sh.take (sh.length - c))).map
          (· * (sh.drop (sh.length - c)).prod)).map Int.ofNat := by
    rw [hcanon_split, List.map_append,
      List.take_left' (by simp [canonicalStridesN_length, hiterlen])]
  have hsrctake : List.take (sh.length - c) (srcStr.map Int.ofNat)
      = (srcStr.take (sh.length - c)).map Int.ofNat :=
    (List.map_take Int.ofNat srcStr (sh.length - c)).symm
  have hfun : (fun (buf : Bytes) (idx : List Nat) =>
        writeSeg buf
          ((0 + dotIS (List.take (sh.length - c) (List.map Int.ofNat (canonicalStridesN sh))) idx)
              * (l.nbytes : Int)).toNat
          (List.take ((List.drop (sh.length - c) sh).prod * l.nbytes)
            (List.drop
              ((Int.ofNat o + dotIS (List.take (sh.length - c) (List.map Int.ofNat srcStr)) idx)
                  * (l.nbytes : Int)).toNat
              sphys)))
      = fun (buf : Bytes) (idx : List Nat) =>
        writeSeg buf
          (dotN (canonicalStridesN (sh.take (sh.length - c))) idx
            * ((sh.drop (sh.length - c)).prod * l.nbytes))
          (List.take ((sh.drop (sh.length - c)).prod * l.nbytes)
            (List.drop ((o + dotN (srcStr.take (sh.length - c)) idx) * l.nbytes) sphys)) := by
    funext buf idx
    rw [hdsttake, hsrctake, dotIS_cast, dotIS_cast, dotN_scaled, zero_add,
      Int.ofNat_eq_natCast, ← Nat.cast_add, toNat_cast_mul, toNat_cast_mul, Nat.mul_assoc]
  rw [hfun]
  have hts_len : (allIndexTuples (sh.take (sh.length - c))).length
      = (sh.take (sh.length - c)).prod := by
    have h := congrArg List.length (map_dot_canonical (sh.take (sh.length - c)))
    simpa using h
  have hwrite := write_tiles (allIndexTuples (sh.take (sh.length - c)))
    (fun idx => dotN (canonicalStridesN (sh.take (sh.length - c))) idx)
    (fun idx => List.take ((sh.drop (sh.length - c)).prod * l.nbytes)
      (List.drop ((o + dotN (srcStr.take (sh.length - c)) idx) * l.nbytes) sphys))
    ((sh.drop (sh.length - c)).prod * l.nbytes) 0 dphys
    (by rw [map_dot_canonical, hts_len, List.range_eq_range'])
    (fun x hx => by
      have hb := hbound x hx
      rw [List.length_take, List.length_drop]
      exact min_eq_left (by omega))
    (by
      rw [hts_len, hdlen, ← List.prod_take_mul_prod_drop sh (sh.length - c)]
      ring)
  refine hwrite.trans ?_
  rw [Nat.zero_mul, List.take_zero, List.nil_append]
  conv_rhs => rw [← List.take_append_drop (sh.length - c) sh]
  rw [allIndexTuples_append, List.flatMap_assoc, List.flatMap_def, List.flatMap_def]
  congr 1
  apply List.map_congr_left
  intro p hp
  have hp_len : p.length = sh.length - c := by
    rw [allIndexTuples_mem_length _ p hp, hiterlen]
  have htake_len : (srcStr.take (sh.length - c)).length = p.length := by
    rw [List.length_take, hslen, hp_len]
    exact min_eq_left (Nat.sub_le _ _)
  have hpoint : ∀ tl, tl ∈ allIndexTuples (sh.drop (sh.length - c)) →
      List.take l.nbytes
        (List.drop ((Int.ofNat o + dotIS (List.map Int.ofNat srcStr) (p ++ tl))
            * (l.nbytes : Int)).toNat sphys)
      = List.take l.nbytes
        (List.drop ((o + dotN (srcStr.take (sh.length - c)) p) * l.nbytes
          + dotN (canonicalStridesN (sh.drop (sh.length - c))) tl * l.nbytes) sphys) := by
    intro tl _
    have hsplit : dotN srcStr (p ++ tl)
        = dotN (srcStr.take (sh.length - c)) p
          + dotN (canonicalStridesN (sh.drop (sh.length - c))) tl := by
      conv_lhs => rw [← List.take_append_drop (sh.length - c) srcStr]
      rw [dotN_append _ _ _ _ htake_len, htail]
    rw [dotIS_cast, hsplit, Int.ofNat_eq_natCast, ← Nat.cast_add, toNat_cast_mul]
    congr 2
    ring
  calc List.take ((sh.drop (sh.length - c)).prod * l.nbytes)
        (List.drop ((o + dotN (srcStr.take (sh.length - c)) p) * l.nbytes) sphys)
      = (List.range ((sh.drop (sh.length - c)).prod)).flatMap (fun k =>
          List.take l.nbytes
            (List.drop ((o + dotN (srcStr.take (sh.length - c)) p) * l.nbytes
              + k * l.nbytes) sphys)) :=
        (slice_decompose sphys l.nbytes _ _).symm
    _ = ((allIndexTuples (sh.drop (sh.length - c))).map
          (fun tpl => dotN (canonicalStridesN (sh.drop (sh.length - c))) tpl)).flatMap (fun k =>
          List.take l.nbytes
            (List.drop ((o + dotN (srcStr.take (sh.length - c)) p) * l.nbytes
              + k * l.nbytes) sphys)) := by
        rw [map_dot_canonical]
    _ = (allIndexTuples (sh.drop (sh.length - c))).flatMap (fun tl =>
          List.take l.nbytes
            (List.drop ((o + dotN (srcStr.take (sh.length - c)) p) * l.nbytes
              + dotN (canonicalStridesN (sh.drop (sh.length - c))) tl * l.nbytes) sphys)) :=
        List.flatMap_map _ _ _
    _ = (allIndexTuples (sh.drop (sh.length - c))).flatMap (fun tl =>
          List.take l.nbytes
            (List.drop ((Int.ofNat o + dotIS (List.map Int.ofNat srcStr) (p ++ tl))
                * (l.nbytes : Int)).toNat sphys)) := by
        rw [List.flatMap_def, List.flatMap_def]
        congr 1
        exact List.map_congr_left fun tl htl => (hpoint tl htl).symm
    _ = ((allIndexTuples (sh.drop (sh.length - c))).map (p ++ ·)).flatMap (fun idx =>
          List.take l.nbytes
            (List.drop ((Int.ofNat o + dotIS (List.map Int.ofNat srcStr) idx)
                * (l.nbytes : Int)).toNat sphys)) :=
        (List.flatMap_map (fun x => p ++ x)
          (fun idx => List.take l.nbytes
            (List.drop ((Int.ofNat o + dotIS (List.map Int.ofNat srcStr) idx)
                * (l.nbytes : Int)).toNat sphys))
          (allIndexTuples (sh.drop (sh.length - c)))).symm

/-- C2 counterexample: a broadcast source (shape `[2]`, stride 0) is counted
as contiguous by `contiguous_len`, so `reform_to` into a packed `[2]`
destination copies the two raw bytes `[7, 9]` instead of the row-major
serialization `[7, 7]` of the logical content. -/
theorem reform_to_broadcast_cex :
    (Tensor.mk U8 [2] [0] 0 [7, 9]).reform_to (Tensor.mk U8 [2] [1] 0 [0, 0]) = some [7, 9] ∧
    serialize (Tensor.mk U8 [2] [0] 0 [7, 9]) = [7, 7] ∧
    ¬ (Tensor.mk U8 [2] [0] 0 [7, 9]).reform_to (Tensor.mk U8 [2] [1] 0 [0, 0])
        = some (serialize (Tensor.mk U8 [2] [0] 0 [7, 9])) := by
  decide

/-- Witness for C2's amended theorem: reforming a transposed (fully strided)
`[2, 2]` source into a packed destination yields its row-major
serialization. -/
theorem reform_to_serializes_witness :
    (Tensor.mk U8 [2, 2] ([1, 2].map Int.ofNat) (Int.ofNat 0) [10, 11, 12, 13]).reform_to
        (Tensor.mk U8 [2, 2] ((canonicalStridesN [2, 2]).map Int.ofNat) 0 [0, 0, 0, 0])
      = some (serialize (Tensor.mk U8 [2, 2] ([1, 2].map Int.ofNat) (Int.ofNat 0)
          [10, 11, 12, 13])) :=
  reform_to_serializes U8 [2, 2] [1, 2] 0 [10, 11, 12, 13] [0, 0, 0, 0] 0
    (by decide) (by decide) (by decide) (by decide) (by decide)
